import Mathlib

/-!
Verification of the histogram operations of the histogram_macros library.

A histogram is any map-like container from labels to numeric measures.
The library's macros (`bump_skeleton!`, `get_skeleton!`, `total_skeleton!`,
`mode!`, `ranking_skeleton!`, `collect_from_skeleton!`, ...) operate on any
such container through its `get` / `get_mut` / `insert` / `iter` methods.
We model the container as an association list `List (L × M)` whose entry
order stands for the (unspecified) iteration order of the container;
`get` finds the first entry with a matching key, `get_mut`-then-mutate
updates that entry in place, and `insert` of an absent key places the new
entry at an arbitrary position in iteration order, modelled here as the
end of the list.  Rust's `clone` / `to_owned` on label values is modelled
by the identity function, since Lean values are pure.
-/

namespace Histogram

variable {L : Type} {M : Type}

/-- A histogram: entries of a map-like container in iteration order. -/
abbrev Hist (L M : Type) := List (L × M)

/-- Model of `.clone()` / `.to_owned()` on a label value. -/
def clone (k : L) : L := k

/-- Model of `Map::get`: the entry with a matching key, if any. -/
def get [DecidableEq L] : Hist L M → L → Option M
  | [], _ => none
  | (k', v) :: rest, k => if k' = k then some v else get rest k

/-- Model of `bump_skeleton!(d, kg, ki, v)`:
`match d.get_mut(kg) { None => d.insert(ki, v), Some(count) => *count += v }`.
The lookup key `kg` and the insertion key `ki` are distinct parameters,
exactly as in the macro. -/
def bump_skeleton [DecidableEq L] [Add M] : Hist L M → L → L → M → Hist L M
  | [], _, ki, v => [(ki, v)]
  | (k', c) :: rest, kg, ki, v =>
    if k' = kg then (k', c + v) :: rest
    else (k', c) :: bump_skeleton rest kg ki v

/-- Model of `bump_ref_by!(d, k, v)` = `bump_skeleton!(d, k, k.to_owned(), v)`. -/
def bump_ref_by [DecidableEq L] [Add M] (d : Hist L M) (k : L) (v : M) : Hist L M :=
  bump_skeleton d k (clone k) v

/-- Model of `bump_ref!(d, k)` = `bump_ref_by!(d, k, 1)`. -/
def bump_ref [DecidableEq L] [Add M] [One M] (d : Hist L M) (k : L) : Hist L M :=
  bump_ref_by d k 1

/-- Model of `bump_by!(d, k, v)` = `bump_skeleton!(d, &k, k, v)`. -/
def bump_by [DecidableEq L] [Add M] (d : Hist L M) (k : L) (v : M) : Hist L M :=
  bump_skeleton d k k v

/-- Model of `bump!(d, k)` = `bump_by!(d, k, 1)`. -/
def bump [DecidableEq L] [Add M] [One M] (d : Hist L M) (k : L) : Hist L M :=
  bump_by d k 1

/-- Model of `get_skeleton!(d, k, z)` = `*(d.get(k).unwrap_or(&z))`. -/
def get_skeleton [DecidableEq L] (d : Hist L M) (k : L) (z : M) : M :=
  (get d k).getD z

/-- Model of `count!` / `count_ref!` / `weight!` / `weight_ref!`:
`get_skeleton!` with the zero of the measure type. -/
def count [DecidableEq L] [Zero M] (d : Hist L M) (k : L) : M :=
  get_skeleton d k 0

/-- Model of `Iterator::reduce(|acc, n| acc + n).unwrap_or(z)`. -/
def reduce_add [Add M] (z : M) : List M → M
  | [] => z
  | x :: xs => xs.foldl (· + ·) x

/-- Model of `total_skeleton!(d, z)`:
`d.iter().map(|(_, value)| value).copied().reduce(|acc, n| acc + n).unwrap_or(z)`. -/
def total_skeleton [Add M] (d : Hist L M) (z : M) : M :=
  reduce_add z (d.map Prod.snd)

/-- Model of `total!` / `total_weight!`: `total_skeleton!` with zero. -/
def total [Add M] [Zero M] (d : Hist L M) : M :=
  total_skeleton d 0

/-- One step of `Iterator::max_by_key` on entries, keyed by the measure;
when the new element's key is ≥ the current maximum's, the new (later)
element wins, matching `max_by_key`'s documented last-maximum behavior. -/
def modeStep [LinearOrder M] (acc : Option (L × M)) (p : L × M) : Option (L × M) :=
  match acc with
  | none => some p
  | some q => if q.2 ≤ p.2 then some p else some q

/-- Model of `mode!` / `mode_by_weight!` / `HashHistogram::mode`:
`d.iter().max_by_key(|(_, count)| **count).map(|(key, _)| key.clone())`. -/
def mode [DecidableEq L] [LinearOrder M] (d : Hist L M) : Option L :=
  (d.foldl modeStep none).map Prod.fst

/-- The lexicographic order in which Rust's `Vec::sort` arranges
`(measure, label)` pairs (the derived `Ord` on tuples). -/
def pairLe [LinearOrder M] [LinearOrder L] (p q : M × L) : Prop :=
  p.1 < q.1 ∨ (p.1 = q.1 ∧ p.2 ≤ q.2)

instance pairLe.decidableRel [LinearOrder M] [LinearOrder L] :
    DecidableRel (pairLe (M := M) (L := L)) := fun p q => by
  unfold pairLe; infer_instance

instance pairLe.isTotal [LinearOrder M] [LinearOrder L] :
    IsTotal (M × L) pairLe where
  total p q := by
    rcases lt_trichotomy p.1 q.1 with h | h | h
    · exact Or.inl (Or.inl h)
    · rcases le_total p.2 q.2 with h2 | h2
      · exact Or.inl (Or.inr ⟨h, h2⟩)
      · exact Or.inr (Or.inr ⟨h.symm, h2⟩)
    · exact Or.inr (Or.inl h)

instance pairLe.isTrans [LinearOrder M] [LinearOrder L] :
    IsTrans (M × L) pairLe where
  trans p q r hpq hqr := by
    rcases hpq with h1 | ⟨h1, h1'⟩
    · rcases hqr with h2 | ⟨h2, _⟩
      · exact Or.inl (h1.trans h2)
      · exact Or.inl (h2 ▸ h1)
    · rcases hqr with h2 | ⟨h2, h2'⟩
      · exact Or.inl (h1 ▸ h2)
      · exact Or.inr ⟨h1.trans h2, h1'.trans h2'⟩

/-- Model of `ranking_skeleton!(seq)`: collect the `(measure, label)` pairs
into a vector, `sort()` ascending, then reverse and swap each pair. -/
def ranking_skeleton [LinearOrder M] [LinearOrder L] (s : List (M × L)) : List (L × M) :=
  ((List.insertionSort pairLe s).reverse).map Prod.swap

/-- Model of `ranking!` / `ranking_by_weight!`:
`ranking_skeleton!(d.iter().map(|(t, n)| (*n, t.clone())))`. -/
def ranking [LinearOrder M] [LinearOrder L] (d : Hist L M) : List (L × M) :=
  ranking_skeleton (d.map Prod.swap)

/-- Model of `collect_from_skeleton!(iter, d, b)`: fold the bump
operation `b` over the sequence, starting from `d`. -/
def collect_from_skeleton (xs : List L) (d : Hist L M)
    (b : Hist L M → L → Hist L M) : Hist L M :=
  xs.foldl b d

/-- Model of `collect_from_into!(iter, d)` = fold with `bump!`. -/
def collect_from_into [DecidableEq L] [Add M] [One M]
    (xs : List L) (d : Hist L M) : Hist L M :=
  collect_from_skeleton xs d bump

/-- Model of `collect_from_ref_into!(iter, d)` = fold with `bump_ref!`. -/
def collect_from_ref_into [DecidableEq L] [Add M] [One M]
    (xs : List L) (d : Hist L M) : Hist L M :=
  collect_from_skeleton xs d bump_ref

/-- Model of `collect_from_by_skeleton!(iter, d, b)`. -/
def collect_from_by_skeleton (ps : List (L × M)) (d : Hist L M)
    (b : Hist L M → L → M → Hist L M) : Hist L M :=
  ps.foldl (fun r p => b r p.1 p.2) d

/-- Model of `collect_from_by_into!(iter, d)` = fold with `bump_by!`. -/
def collect_from_by_into [DecidableEq L] [Add M]
    (ps : List (L × M)) (d : Hist L M) : Hist L M :=
  collect_from_by_skeleton ps d bump_by

/-- Model of `collect_from_ref_by_into!(iter, d)` = fold with `bump_ref_by!`. -/
def collect_from_ref_by_into [DecidableEq L] [Add M]
    (ps : List (L × M)) (d : Hist L M) : Hist L M :=
  collect_from_by_skeleton ps d bump_ref_by

/-- `bump!` iterated `n` times on the same label (the repeated
unit increment that claim C8 compares with a single `bump_by!`). -/
def bumpN [DecidableEq L] (d : Hist L Nat) (k : L) : Nat → Hist L Nat
  | 0 => d
  | n + 1 => bump (bumpN d k n) k

/-- `bump_skeleton!` with the measure type taken as `w`-bit native unsigned
integers: every arithmetic result is reduced modulo `2 ^ w`. -/
def bump_skeletonW (w : Nat) [DecidableEq L] : Hist L Nat → L → L → Nat → Hist L Nat
  | [], _, ki, v => [(ki, v % 2 ^ w)]
  | (k', c) :: rest, kg, ki, v =>
    if k' = kg then (k', (c + v) % 2 ^ w) :: rest
    else (k', c) :: bump_skeletonW w rest kg ki v

/-- `bump_by!` over `w`-bit unsigned measures. -/
def bump_byW (w : Nat) [DecidableEq L] (d : Hist L Nat) (k : L) (v : Nat) : Hist L Nat :=
  bump_skeletonW w d k k v

/-- `reduce(|acc, n| acc + n)` over `w`-bit unsigned measures. -/
def reduce_addW (w : Nat) (z : Nat) : List Nat → Nat
  | [] => z
  | x :: xs => xs.foldl (fun a b => (a + b) % 2 ^ w) x

/-- `total!` over `w`-bit unsigned measures. -/
def totalW (w : Nat) (d : Hist L Nat) : Nat :=
  reduce_addW w 0 (d.map Prod.snd)

/-- `collect_from_by_into!` over `w`-bit unsigned measures. -/
def collect_from_by_intoW (w : Nat) [DecidableEq L]
    (ps : List (L × Nat)) (d : Hist L Nat) : Hist L Nat :=
  ps.foldl (fun r p => bump_byW w r p.1 p.2) d

/-! ### Helper lemmas about `bump_skeleton`, `count` and `total` -/

theorem count_bump_skeleton [DecidableEq L] [AddCommMonoid M]
    (d : Hist L M) (k l : L) (v : M) :
    count (bump_skeleton d k k v) l = if l = k then count d l + v else count d l := by
  induction d with
  | nil =>
    by_cases h : l = k
    · subst h; simp [count, get_skeleton, get, bump_skeleton]
    · simp [count, get_skeleton, get, bump_skeleton, h, Ne.symm h]
  | cons p rest ih =>
    obtain ⟨k', c⟩ := p
    by_cases hk : k' = k
    · subst hk
      by_cases hl : l = k'
      · subst hl; simp [count, get_skeleton, get, bump_skeleton]
      · simp [count, get_skeleton, get, bump_skeleton, hl, Ne.symm hl]
    · by_cases hl : l = k'
      · subst hl
        have hlk : ¬ l = k := fun h => hk h
        simp [count, get_skeleton, get, bump_skeleton, hk, hlk]
      · have hk'l : k' ≠ l := fun h => hl h.symm
        simp only [count, get_skeleton, get, bump_skeleton, if_neg hk, if_neg hk'l]
        exact ih

theorem count_bump_by [DecidableEq L] [AddCommMonoid M]
    (d : Hist L M) (k l : L) (v : M) :
    count (bump_by d k v) l = if l = k then count d l + v else count d l :=
  count_bump_skeleton d k l v

theorem bump_ref_by_eq_bump_by [DecidableEq L] [Add M]
    (d : Hist L M) (k : L) (v : M) :
    bump_ref_by d k v = bump_by d k v := rfl

theorem bump_ref_eq_bump [DecidableEq L] [Add M] [One M]
    (d : Hist L M) (k : L) :
    bump_ref d k = bump d k := rfl

theorem count_nil [DecidableEq L] [Zero M] (l : L) :
    count ([] : Hist L M) l = 0 := rfl

theorem count_eq_of_get_none [DecidableEq L] [Zero M]
    (d : Hist L M) (l : L) (h : get d l = none) : count d l = 0 := by
  simp [count, get_skeleton, h]

theorem count_eq_of_get_some [DecidableEq L] [Zero M]
    (d : Hist L M) (l : L) (m : M) (h : get d l = some m) : count d l = m := by
  simp [count, get_skeleton, h]

theorem count_collect_from_into_not_mem [DecidableEq L]
    (xs : List L) (d : Hist L Nat) (l : L) (h : l ∉ xs) :
    count (collect_from_into xs d) l = count d l := by
  induction xs generalizing d with
  | nil => rfl
  | cons x t ih =>
    have hx : l ≠ x := fun he => h (he ▸ List.mem_cons_self x t)
    have ht : l ∉ t := fun he => h (List.mem_cons_of_mem x he)
    have : collect_from_into (x :: t) d = collect_from_into t (bump d x) := rfl
    rw [this, ih (bump d x) ht]
    have := count_bump_by d x l 1
    simpa [bump, hx] using this

theorem foldl_add_eq_add_sum [AddCommMonoid M] (xs : List M) (a : M) :
    xs.foldl (· + ·) a = a + xs.sum := by
  induction xs generalizing a with
  | nil => simp
  | cons x t ih => simp [ih, add_assoc]

theorem reduce_add_eq_sum [AddCommMonoid M] (xs : List M) :
    reduce_add (0 : M) xs = xs.sum := by
  cases xs with
  | nil => rfl
  | cons x t => simp [reduce_add, foldl_add_eq_add_sum]

theorem total_eq_sum [AddCommMonoid M] (d : Hist L M) :
    total d = (d.map Prod.snd).sum :=
  reduce_add_eq_sum _

theorem vals_bump_skeleton [DecidableEq L] [AddCommMonoid M]
    (d : Hist L M) (k : L) (v : M) :
    ((bump_skeleton d k k v).map Prod.snd).sum = (d.map Prod.snd).sum + v := by
  induction d with
  | nil => simp [bump_skeleton]
  | cons p rest ih =>
    obtain ⟨k', c⟩ := p
    by_cases hk : k' = k
    · simp [bump_skeleton, hk, add_assoc, add_comm v]
    · simp [bump_skeleton, hk, ih, add_assoc]

theorem total_bump_by [DecidableEq L] [AddCommMonoid M]
    (d : Hist L M) (k : L) (v : M) :
    total (bump_by d k v) = total d + v := by
  rw [total_eq_sum, total_eq_sum]
  exact vals_bump_skeleton d k v

theorem total_collect_from_by_into [DecidableEq L] [AddCommMonoid M]
    (ps : List (L × M)) (d : Hist L M) :
    total (collect_from_by_into ps d) = total d + (ps.map Prod.snd).sum := by
  induction ps generalizing d with
  | nil => simp [collect_from_by_into, collect_from_by_skeleton]
  | cons p t ih =>
    have : collect_from_by_into (p :: t) d = collect_from_by_into t (bump_by d p.1 p.2) := rfl
    rw [this, ih, total_bump_by]
    simp [add_assoc]

theorem total_collect_from_into [DecidableEq L]
    (xs : List L) (d : Hist L Nat) :
    total (collect_from_into xs d) = total d + xs.length := by
  induction xs generalizing d with
  | nil => simp [collect_from_into, collect_from_skeleton]
  | cons x t ih =>
    have : collect_from_into (x :: t) d = collect_from_into t (bump d x) := rfl
    rw [this, ih]
    have hb : total (bump d x) = total d + 1 := total_bump_by d x 1
    rw [hb]
    simp only [List.length_cons]
    omega

/-! ### Claim theorems C1, C2, C3, C6 -/

/-- Claim C1: `bump_by!` (and its variants) adds the amount to the looked-up
measure of the bumped label, inserting the label with the given measure when
absent, leaves every other label's measure unchanged, and on a fresh
histogram the subsequent lookup returns exactly the bumped amount. -/
theorem bump_lookup_correct [DecidableEq L] [AddCommMonoid M]
    (d : Hist L M) (k : L) (v : M) :
    count (bump_by d k v) k = count d k + v ∧
    (∀ l, l ≠ k → count (bump_by d k v) l = count d l) ∧
    count (bump_by ([] : Hist L M) k v) k = v := by
  refine ⟨?_, ?_, ?_⟩
  · simpa using count_bump_by d k k v
  · intro l hl
    simpa [hl] using count_bump_by d k l v
  · simpa [count_nil] using count_bump_by ([] : Hist L M) k k v

theorem bump_lookup_correct_witness :
    (1 : Nat) ≠ 0 ∧
    count (bump_by [((1 : Nat), (2 : Nat))] 0 5) 1 = count [((1 : Nat), (2 : Nat))] 1 :=
  ⟨by decide, (bump_lookup_correct [((1 : Nat), (2 : Nat))] 0 5).2.1 1 (by decide)⟩

/-- Claim C2: lookup (`count!` and friends) is a total function: it returns
the stored measure of a present label, and zero both for a label whose `get`
is `none` and for any label never supplied to the collection that built the
histogram. -/
theorem lookup_total_default [DecidableEq L] [Zero M]
    (d : Hist L M) (l : L) (xs : List L) (l' : L) :
    (∀ m, get d l = some m → count d l = m) ∧
    (get d l = none → count d l = 0) ∧
    (l' ∉ xs → count (collect_from_into xs ([] : Hist L Nat)) l' = 0) := by
  refine ⟨fun m hm => count_eq_of_get_some d l m hm,
    fun h => count_eq_of_get_none d l h, fun h => ?_⟩
  rw [count_collect_from_into_not_mem xs ([] : Hist L Nat) l' h]
  rfl

theorem lookup_total_default_witness :
    (2 : Nat) ∉ [0, 1, 0] ∧
    count (collect_from_into [0, 1, 0] ([] : Hist Nat Nat)) 2 = 0 :=
  ⟨by decide,
    (lookup_total_default ([] : Hist Nat Nat) 0 [0, 1, 0] 2).2.2 (by decide)⟩

/-- Claim C3: `total!` is the sum of all stored measures, it is zero (not an
error) on an empty histogram, and it is zero on a histogram all of whose
stored measures are zero. -/
theorem total_sum_correct [AddCommMonoid M] (d : Hist L M) :
    total ([] : Hist L M) = 0 ∧
    total d = (d.map Prod.snd).sum ∧
    ((∀ p ∈ d, p.2 = 0) → total d = 0) := by
  refine ⟨rfl, total_eq_sum d, fun h => ?_⟩
  rw [total_eq_sum d]
  exact List.sum_eq_zero fun x hx => by
    obtain ⟨p, hp, rfl⟩ := List.mem_map.mp hx
    exact h p hp

theorem total_sum_correct_witness :
    (∀ p ∈ [((3 : Nat), (0 : Nat)), (5, 0)], p.2 = 0) ∧
    total [((3 : Nat), (0 : Nat)), (5, 0)] = 0 :=
  ⟨by decide, (total_sum_correct [((3 : Nat), (0 : Nat)), (5, 0)]).2.2 (by decide)⟩

/-- Claim C6: bumping by owned value (`bump!` / `bump_by!`) and bumping by
reference-then-clone (`bump_ref!` / `bump_ref_by!`) produce identical
resulting maps; they differ only in calling convention. -/
theorem bump_variants_agree [DecidableEq L] [Add M] [One M]
    (d : Hist L M) (k : L) (v : M) :
    bump_by d k v = bump_ref_by d k v ∧ bump d k = bump_ref d k :=
  ⟨rfl, rfl⟩

/-! ### Helper lemmas about `mode` -/

theorem modeAux_spec [DecidableEq L] [LinearOrder M] (d : Hist L M) :
    ∀ q : L × M,
      ∃ p, d.foldl modeStep (some q) = some p ∧ (p = q ∨ p ∈ d) ∧ q.2 ≤ p.2 ∧
        ∀ r ∈ d, r.2 ≤ p.2 := by
  induction d with
  | nil => exact fun q => ⟨q, rfl, Or.inl rfl, le_refl _, by simp⟩
  | cons x rest ih =>
    intro q
    by_cases h : q.2 ≤ x.2
    · obtain ⟨p, hp1, hp2, hp3, hp4⟩ := ih x
      refine ⟨p, ?_, ?_, h.trans hp3, ?_⟩
      · simpa [modeStep, h] using hp1
      · rcases hp2 with h2 | h2
        · exact Or.inr (h2 ▸ List.mem_cons_self x rest)
        · exact Or.inr (List.mem_cons_of_mem x h2)
      · intro r hr
        rcases List.mem_cons.mp hr with h3 | h3
        · exact h3 ▸ hp3
        · exact hp4 r h3
    · obtain ⟨p, hp1, hp2, hp3, hp4⟩ := ih q
      refine ⟨p, ?_, ?_, hp3, ?_⟩
      · simpa [modeStep, h] using hp1
      · rcases hp2 with h2 | h2
        · exact Or.inl h2
        · exact Or.inr (List.mem_cons_of_mem x h2)
      · intro r hr
        rcases List.mem_cons.mp hr with h3 | h3
        · exact h3 ▸ ((le_of_not_le h).trans hp3)
        · exact hp4 r h3

theorem mode_spec [DecidableEq L] [LinearOrder M] (d : Hist L M) (hd : d ≠ []) :
    ∃ p ∈ d, mode d = some p.1 ∧ ∀ r ∈ d, r.2 ≤ p.2 := by
  match d, hd with
  | x :: rest, _ =>
    obtain ⟨p, hp1, hp2, hp3, hp4⟩ := modeAux_spec rest x
    refine ⟨p, ?_, ?_, ?_⟩
    · rcases hp2 with h | h
      · exact h ▸ List.mem_cons_self x rest
      · exact List.mem_cons_of_mem x h
    · show ((x :: rest).foldl modeStep none).map Prod.fst = some p.1
      rw [List.foldl_cons]
      show (rest.foldl modeStep (some x)).map Prod.fst = some p.1
      rw [hp1]
      rfl
    · intro r hr
      rcases List.mem_cons.mp hr with h | h
      · exact h ▸ hp3
      · exact hp4 r h

theorem mode_isSome_of_ne_nil [DecidableEq L] [LinearOrder M]
    (d : Hist L M) (hd : d ≠ []) : (mode d).isSome = true := by
  obtain ⟨p, _, hm, _⟩ := mode_spec d hd
  simp [hm]

theorem get_eq_of_mem_nodup [DecidableEq L] {d : Hist L M} {l : L} {m : M}
    (hnd : (d.map Prod.fst).Nodup) (hm : (l, m) ∈ d) : get d l = some m := by
  induction d with
  | nil => cases hm
  | cons p rest ih =>
    obtain ⟨k', c⟩ := p
    have hnd2 : (∀ x : M, (k', x) ∉ rest) ∧ (rest.map Prod.fst).Nodup := by
      simpa using hnd
    obtain ⟨hk, hrest⟩ := hnd2
    rcases List.mem_cons.mp hm with h | h
    · injection h with h1 h2
      subst h1; subst h2
      simp [get]
    · have hne : k' ≠ l := fun he => hk m (he ▸ h)
      simp only [get, if_neg hne]
      exact ih hrest h

/-! ### Helper lemmas about `ranking` -/

theorem ranking_keys_perm [LinearOrder M] [LinearOrder L] (d : Hist L M) :
    List.Perm ((ranking d).map Prod.fst) (d.map Prod.fst) := by
  have h1 : List.Perm (List.insertionSort pairLe (d.map Prod.swap)).reverse
      (d.map Prod.swap) :=
    (List.reverse_perm _).trans (List.perm_insertionSort _ _)
  have h2 := (h1.map Prod.swap).map Prod.fst
  simpa [ranking, ranking_skeleton, List.map_map, Function.comp_def] using h2

theorem ranking_pairwise [LinearOrder M] [LinearOrder L] (d : Hist L M) :
    (ranking d).Pairwise (fun p q => q.2 < p.2 ∨ (q.2 = p.2 ∧ q.1 ≤ p.1)) := by
  have hs : (List.insertionSort pairLe (d.map Prod.swap)).Pairwise pairLe :=
    List.sorted_insertionSort pairLe (d.map Prod.swap)
  simp only [ranking, ranking_skeleton, List.pairwise_map, List.pairwise_reverse]
  refine hs.imp ?_
  intro a b h
  simpa [pairLe] using h

/-! ### Claim theorems C4, C5, C9 -/

/-- Claim C4: `mode!` returns `none` on the empty histogram, and on a
non-empty histogram (with distinct keys, as in any real map) it returns
some present label whose stored measure is maximal among all entries. -/
theorem mode_max_correct [DecidableEq L] [LinearOrder M] [Zero M] (d : Hist L M) :
    mode ([] : Hist L M) = none ∧
    (d ≠ [] → (d.map Prod.fst).Nodup →
      ∃ l, mode d = some l ∧ l ∈ d.map Prod.fst ∧ ∀ p ∈ d, p.2 ≤ count d l) := by
  refine ⟨rfl, fun hd hnd => ?_⟩
  obtain ⟨p, hpmem, hmode, hmax⟩ := mode_spec d hd
  refine ⟨p.1, hmode, List.mem_map_of_mem Prod.fst hpmem, fun q hq => ?_⟩
  have hg : get d p.1 = some p.2 := get_eq_of_mem_nodup hnd (by simpa using hpmem)
  rw [count_eq_of_get_some d p.1 p.2 hg]
  exact hmax q hq

theorem mode_max_correct_witness :
    ([((0 : Nat), (1 : Nat)), (1, 2)] ≠ ([] : Hist Nat Nat)) ∧
    (([((0 : Nat), (1 : Nat)), (1, 2)].map Prod.fst).Nodup) ∧
    (∃ l, mode [((0 : Nat), (1 : Nat)), (1, 2)] = some l ∧
      l ∈ [((0 : Nat), (1 : Nat)), (1, 2)].map Prod.fst ∧
      ∀ p ∈ [((0 : Nat), (1 : Nat)), (1, 2)], p.2 ≤ count [((0 : Nat), (1 : Nat)), (1, 2)] l) :=
  ⟨by decide, by decide,
    (mode_max_correct [((0 : Nat), (1 : Nat)), (1, 2)]).2 (by decide) (by decide)⟩

/-- Claim C5: `ranking!` equals sorting the `(measure, label)` pairs
ascending and reversing (then swapping each pair back), its labels are a
permutation of the present labels, and consecutive entries are ordered by
strictly descending measure or, on equal measures, by descending label. -/
theorem ranking_correct [LinearOrder M] [LinearOrder L] (d : Hist L M) :
    ranking d = ((List.insertionSort pairLe (d.map Prod.swap)).reverse).map Prod.swap ∧
    List.Perm ((ranking d).map Prod.fst) (d.map Prod.fst) ∧
    (ranking d).Pairwise (fun p q => q.2 < p.2 ∨ (q.2 = p.2 ∧ q.1 ≤ p.1)) :=
  ⟨rfl, ranking_keys_perm d, ranking_pairwise d⟩

theorem bump_skeleton_ne_nil [DecidableEq L] [Add M]
    (d : Hist L M) (kg ki : L) (v : M) : bump_skeleton d kg ki v ≠ [] := by
  cases d with
  | nil => simp [bump_skeleton]
  | cons p rest =>
    obtain ⟨k', c⟩ := p
    by_cases h : k' = kg <;> simp [bump_skeleton, h]

theorem self_mem_keys_bump_skeleton [DecidableEq L] [Add M]
    (d : Hist L M) (k : L) (v : M) :
    k ∈ (bump_skeleton d k k v).map Prod.fst := by
  induction d with
  | nil => simp [bump_skeleton]
  | cons p rest ih =>
    obtain ⟨k', c⟩ := p
    by_cases h : k' = k
    · simp [bump_skeleton, h]
    · simp only [bump_skeleton, if_neg h, List.map_cons, List.mem_cons]
      exact Or.inr ih

/-- Claim C9: bumping an absent label by amount zero makes it a present key:
its lookup still returns zero, yet it appears among the labels of
`ranking!`, makes `mode!` return some label, and on a histogram holding
only that zero-measure label `mode!` returns exactly it. -/
theorem zero_bump_observable [DecidableEq L] [LinearOrder L] (d : Hist L Nat) (l : L)
    (h : get d l = none) :
    count (bump_by d l 0) l = 0 ∧
    l ∈ (ranking (bump_by d l 0)).map Prod.fst ∧
    (mode (bump_by d l 0)).isSome = true ∧
    mode (bump_by ([] : Hist L Nat) l 0) = some l := by
  refine ⟨?_, ?_, ?_, rfl⟩
  · have h0 : count d l = 0 := count_eq_of_get_none d l h
    simpa [h0] using count_bump_by d l l 0
  · exact (ranking_keys_perm (bump_by d l 0)).mem_iff.mpr
      (self_mem_keys_bump_skeleton d l 0)
  · exact mode_isSome_of_ne_nil _ (bump_skeleton_ne_nil d l l 0)

theorem zero_bump_observable_witness :
    get ([((1 : Nat), (2 : Nat))] : Hist Nat Nat) 0 = none ∧
    (count (bump_by ([((1 : Nat), (2 : Nat))] : Hist Nat Nat) 0 0) 0 = 0 ∧
      0 ∈ (ranking (bump_by ([((1 : Nat), (2 : Nat))] : Hist Nat Nat) 0 0)).map Prod.fst ∧
      (mode (bump_by ([((1 : Nat), (2 : Nat))] : Hist Nat Nat) 0 0)).isSome = true ∧
      mode (bump_by ([] : Hist Nat Nat) 0 0) = some 0) :=
  ⟨by decide, zero_bump_observable [((1 : Nat), (2 : Nat))] 0 (by decide)⟩

/-! ### Claim theorems C7 and C8 -/

theorem total_nil [Add M] [Zero M] : total ([] : Hist L M) = 0 := rfl

/-- Claim C7: collecting a sequence of labels into an empty histogram by
repeated unit bumps gives total equal to the sequence's length, and
collecting `(label, amount)` pairs by `bump_by!` gives total equal to the
sum of the supplied amounts, for both the owned and by-reference variants. -/
theorem collect_total_correct {L2 : Type} [DecidableEq L] [DecidableEq L2]
    [AddCommMonoid M] (xs : List L) (ps : List (L2 × M)) :
    total (collect_from_into xs ([] : Hist L Nat)) = xs.length ∧
    total (collect_from_ref_into xs ([] : Hist L Nat)) = xs.length ∧
    total (collect_from_by_into ps ([] : Hist L2 M)) = (ps.map Prod.snd).sum ∧
    total (collect_from_ref_by_into ps ([] : Hist L2 M)) = (ps.map Prod.snd).sum := by
  have h1 := total_collect_from_into xs ([] : Hist L Nat)
  rw [total_nil, zero_add] at h1
  have h2 := total_collect_from_by_into ps ([] : Hist L2 M)
  rw [total_nil, zero_add] at h2
  have he1 : collect_from_ref_into xs ([] : Hist L Nat)
      = collect_from_into xs ([] : Hist L Nat) := rfl
  have he2 : collect_from_ref_by_into ps ([] : Hist L2 M)
      = collect_from_by_into ps ([] : Hist L2 M) := rfl
  exact ⟨h1, he1 ▸ h1, h2, he2 ▸ h2⟩

theorem bump_by_bump_by [DecidableEq L] [AddSemigroup M]
    (d : Hist L M) (k : L) (a b : M) :
    bump_by (bump_by d k a) k b = bump_by d k (a + b) := by
  simp only [bump_by]
  induction d with
  | nil => simp [bump_skeleton]
  | cons p rest ih =>
    obtain ⟨k', c⟩ := p
    by_cases h : k' = k
    · simp [bump_skeleton, h, add_assoc]
    · simp only [bump_skeleton, if_neg h, List.cons.injEq, true_and]
      exact ih

theorem total_bumpN [DecidableEq L] (d : Hist L Nat) (k : L) (n : Nat) :
    total (bumpN d k n) = total d + n := by
  induction n with
  | zero => rfl
  | succ m ih =>
    show total (bump (bumpN d k m) k) = total d + (m + 1)
    have hb : total (bump (bumpN d k m) k) = total (bumpN d k m) + 1 :=
      total_bump_by (bumpN d k m) k 1
    rw [hb, ih, Nat.add_assoc]

theorem bumpN_succ_eq [DecidableEq L] (d : Hist L Nat) (k : L) :
    ∀ m, bumpN d k (m + 1) = bump_by d k (m + 1)
  | 0 => rfl
  | m + 1 => by
    show bump (bumpN d k (m + 1)) k = bump_by d k (m + 2)
    rw [bumpN_succ_eq d k m]
    show bump_by (bump_by d k (m + 1)) k 1 = bump_by d k (m + 2)
    rw [bump_by_bump_by]

/-- Claim C8 as stated is false at `N = 0` on an absent label: zero unit
bumps leave the histogram unchanged, while `bump_by!` with amount `0`
inserts the label with measure `0`, so the resulting histograms differ. -/
theorem bumpN_zero_cex :
    ¬ (total (bumpN ([] : Hist Nat Nat) 0 0) = total (bump_by ([] : Hist Nat Nat) 0 0) ∧
       bumpN ([] : Hist Nat Nat) 0 0 = bump_by ([] : Hist Nat Nat) 0 0) := by
  decide

/-- Claim C8 (amended): `N` unit bumps of a label always yield the same
total as a single `bump_by!` of `N`, and for `N ≥ 1` they yield the very
same histogram (at `N = 0` the two can differ: `bump_by!` inserts an
absent label with measure zero). -/
theorem bumpN_eq_bump_by_amended [DecidableEq L] (d : Hist L Nat) (k : L) (n : Nat) :
    total (bumpN d k n) = total (bump_by d k n) ∧
    (1 ≤ n → bumpN d k n = bump_by d k n) := by
  constructor
  · rw [total_bumpN, total_bump_by]
  · intro hn
    obtain ⟨m, rfl⟩ : ∃ m, n = m + 1 := ⟨n - 1, by omega⟩
    exact bumpN_succ_eq d k m

theorem bumpN_eq_bump_by_amended_witness :
    1 ≤ 2 ∧ bumpN ([] : Hist Nat Nat) 0 2 = bump_by ([] : Hist Nat Nat) 0 2 :=
  ⟨by decide, (bumpN_eq_bump_by_amended ([] : Hist Nat Nat) 0 2).2 (by decide)⟩

/-! ### `w`-bit wrap-around arithmetic (claim C10) -/

theorem two_pow_posW (w : Nat) : 0 < 2 ^ w :=
  pow_pos (by norm_num) w

/-- Every stored measure fits in `w` bits (true of any histogram whose
measures are machine `usize` values). -/
def WFW (w : Nat) (d : Hist L Nat) : Prop := ∀ p ∈ d, p.2 < 2 ^ w

theorem WFW_nil (w : Nat) : WFW w ([] : Hist L Nat) :=
  fun p hp => absurd hp (List.not_mem_nil p)

theorem WFW_bump_skeletonW [DecidableEq L] (w : Nat) (d : Hist L Nat) (kg ki : L)
    (v : Nat) (h : WFW w d) : WFW w (bump_skeletonW w d kg ki v) := by
  induction d with
  | nil =>
    intro p hp
    rcases List.mem_singleton.mp hp with rfl
    exact Nat.mod_lt _ (two_pow_posW w)
  | cons q rest ih =>
    obtain ⟨k', c⟩ := q
    have hc : c < 2 ^ w := h (k', c) (List.mem_cons_self _ _)
    have hrest : WFW w rest := fun p hp => h p (List.mem_cons_of_mem _ hp)
    by_cases hk : k' = kg
    · intro p hp
      simp only [bump_skeletonW, if_pos hk] at hp
      rcases List.mem_cons.mp hp with rfl | hp
      · exact Nat.mod_lt _ (two_pow_posW w)
      · exact h p (List.mem_cons_of_mem _ hp)
    · intro p hp
      simp only [bump_skeletonW, if_neg hk] at hp
      rcases List.mem_cons.mp hp with rfl | hp
      · exact hc
      · exact ih hrest p hp

theorem get_mem [DecidableEq L] (d : Hist L M) (l : L) (c : M)
    (h : get d l = some c) : (l, c) ∈ d := by
  induction d with
  | nil => cases h
  | cons p rest ih =>
    obtain ⟨k', v⟩ := p
    by_cases hk : k' = l
    · subst hk
      simp [get] at h
      subst h
      exact List.mem_cons_self _ _
    · simp only [get, if_neg hk] at h
      exact List.mem_cons_of_mem _ (ih h)

theorem count_lt_of_WFW [DecidableEq L] (w : Nat) (d : Hist L Nat) (l : L)
    (h : WFW w d) : count d l < 2 ^ w := by
  rcases hg : get d l with _ | c
  · rw [count_eq_of_get_none d l hg]
    exact two_pow_posW w
  · rw [count_eq_of_get_some d l c hg]
    exact h (l, c) (get_mem d l c hg)

theorem count_bump_byW [DecidableEq L] (w : Nat) (d : Hist L Nat) (k l : L) (v : Nat) :
    count (bump_byW w d k v)
      l = if l = k then (count d l + v) % 2 ^ w else count d l := by
  induction d with
  | nil =>
    by_cases h : l = k
    · subst h; simp [count, get_skeleton, get, bump_byW, bump_skeletonW]
    · simp [count, get_skeleton, get, bump_byW, bump_skeletonW, h, Ne.symm h]
  | cons p rest ih =>
    obtain ⟨k', c⟩ := p
    by_cases hk : k' = k
    · subst hk
      by_cases hl : l = k'
      · subst hl; simp [count, get_skeleton, get, bump_byW, bump_skeletonW]
      · simp [count, get_skeleton, get, bump_byW, bump_skeletonW, hl, Ne.symm hl]
    · by_cases hl : l = k'
      · subst hl
        have hlk : ¬ l = k := fun h => hk h
        simp [count, get_skeleton, get, bump_byW, bump_skeletonW, hk, hlk]
      · have hk'l : k' ≠ l := fun h => hl h.symm
        simp only [count, get_skeleton, get, bump_byW, bump_skeletonW,
          if_neg hk, if_neg hk'l]
        exact ih

theorem count_collect_from_by_intoW [DecidableEq L] (w : Nat) (ps : List (L × Nat))
    (d : Hist L Nat) (l : L) (hwf : WFW w d) :
    count (collect_from_by_intoW w ps d) l
      = (count d l + ((ps.filter (fun p => p.1 = l)).map Prod.snd).sum) % 2 ^ w := by
  induction ps generalizing d with
  | nil =>
    simp only [collect_from_by_intoW, List.foldl_nil, List.filter_nil, List.map_nil,
      List.sum_nil, Nat.add_zero]
    exact (Nat.mod_eq_of_lt (count_lt_of_WFW w d l hwf)).symm
  | cons p rest ih =>
    have hstep : collect_from_by_intoW w (p :: rest) d
        = collect_from_by_intoW w rest (bump_byW w d p.1 p.2) := rfl
    rw [hstep, ih (bump_byW w d p.1 p.2) (WFW_bump_skeletonW w d p.1 p.1 p.2 hwf)]
    rw [count_bump_byW]
    by_cases hl : l = p.1
    · rw [if_pos hl]
      have hf : (p :: rest).filter (fun q => q.1 = l)
          = p :: rest.filter (fun q => q.1 = l) := by
        simp [List.filter_cons, hl.symm]
      rw [hf]
      simp only [List.map_cons, List.sum_cons, Nat.mod_add_mod]
      congr 1
      omega
    · rw [if_neg hl]
      have hpl : ¬ p.1 = l := fun h => hl h.symm
      have hf : (p :: rest).filter (fun q => q.1 = l)
          = rest.filter (fun q => q.1 = l) := by
        simp [List.filter_cons, hpl]
      rw [hf]

theorem foldlW_eq (w : Nat) (xs : List Nat) (a : Nat) (ha : a < 2 ^ w) :
    xs.foldl (fun x y => (x + y) % 2 ^ w) a = (a + xs.sum) % 2 ^ w := by
  induction xs generalizing a with
  | nil => simp [Nat.mod_eq_of_lt ha]
  | cons b t ih =>
    simp only [List.foldl_cons]
    rw [ih ((a + b) % 2 ^ w) (Nat.mod_lt _ (two_pow_posW w)), Nat.mod_add_mod]
    simp only [List.sum_cons]
    congr 1
    omega

theorem reduce_addW_eq (w : Nat) (xs : List Nat) (hx : ∀ x ∈ xs, x < 2 ^ w) :
    reduce_addW w 0 xs = xs.sum % 2 ^ w := by
  cases xs with
  | nil => simp [reduce_addW]
  | cons x t =>
    show t.foldl (fun a b => (a + b) % 2 ^ w) x = (x :: t).sum % 2 ^ w
    rw [foldlW_eq w t x (hx x (List.mem_cons_self x t))]
    simp

theorem vals_bump_skeletonW [DecidableEq L] (w : Nat) (d : Hist L Nat) (k : L) (v : Nat) :
    ((bump_skeletonW w d k k v).map Prod.snd).sum % 2 ^ w
      = ((d.map Prod.snd).sum + v) % 2 ^ w := by
  induction d with
  | nil => simp [bump_skeletonW]
  | cons p rest ih =>
    obtain ⟨k', c⟩ := p
    by_cases h : k' = k
    · simp only [bump_skeletonW, if_pos h, List.map_cons, List.sum_cons, Nat.mod_add_mod]
      congr 1
      omega
    · simp only [bump_skeletonW, if_neg h, List.map_cons, List.sum_cons]
      rw [Nat.add_mod c, ih, ← Nat.add_mod]
      congr 1
      omega

theorem totalW_collect [DecidableEq L] (w : Nat) (ps : List (L × Nat)) (d : Hist L Nat)
    (hwf : WFW w d) :
    totalW w (collect_from_by_intoW w ps d)
      = ((d.map Prod.snd).sum + (ps.map Prod.snd).sum) % 2 ^ w := by
  induction ps generalizing d with
  | nil =>
    have hx : ∀ x ∈ d.map Prod.snd, x < 2 ^ w := by
      intro x hx
      obtain ⟨p, hp, rfl⟩ := List.mem_map.mp hx
      exact hwf p hp
    show totalW w d = _
    rw [show totalW w d = reduce_addW w 0 (d.map Prod.snd) from rfl,
      reduce_addW_eq w _ hx]
    simp
  | cons p rest ih =>
    have hstep : collect_from_by_intoW w (p :: rest) d
        = collect_from_by_intoW w rest (bump_byW w d p.1 p.2) := rfl
    rw [hstep, ih (bump_byW w d p.1 p.2) (WFW_bump_skeletonW w d p.1 p.1 p.2 hwf)]
    simp only [bump_byW]
    rw [Nat.add_mod, vals_bump_skeletonW, ← Nat.add_mod]
    simp only [List.map_cons, List.sum_cons]
    congr 1
    omega

/-- Claim C10: with the count type modelled as `w`-bit unsigned integers,
the stored measure of each label after collecting `(label, amount)` pairs
into an empty histogram is that label's amount-sum modulo `2 ^ w`, and
`total!` is the sum of all amounts modulo `2 ^ w`: plain wrap-around, with
no saturation and no error result. -/
theorem wrapping_mod_correct [DecidableEq L] (w : Nat) (ps : List (L × Nat)) (l : L) :
    count (collect_from_by_intoW w ps ([] : Hist L Nat)) l
      = ((ps.filter (fun p => p.1 = l)).map Prod.snd).sum % 2 ^ w ∧
    totalW w (collect_from_by_intoW w ps ([] : Hist L Nat))
      = (ps.map Prod.snd).sum % 2 ^ w := by
  constructor
  · have h := count_collect_from_by_intoW w ps ([] : Hist L Nat) l (WFW_nil w)
    simpa [count_nil] using h
  · have h := totalW_collect w ps ([] : Hist L Nat) (WFW_nil w)
    simpa using h

end Histogram
